import Mathlib

/-!
Verification of the loadit columnar FEA-results database engine against its
natural-language specification.

The Python source is shallowly embedded: pure functions become executable
Lean definitions, stateful operations become explicit state transformers,
IEEE floating-point values are modelled as `Option ℚ` (with `none` standing
for NaN), byte strings as `List Nat`, and fallible code returns `Except`.
Every definition is translated from the source files under `src/loadit/`;
definitions whose name ends in `Spec` restate the specification text and are
used only to compare against the code's behaviour.
-/

namespace Loadit

/-! ## Server authorization (server.py, `DatabaseServer.authorize`) -/

/-- Request types that the authorization matrix reserves to admin sessions
(server.py lines 322-325). -/
def adminOnlyRequests : List String :=
  ["shutdown", "add_worker", "remove_worker", "release_worker", "acquire_worker",
   "sync_databases", "recv_databases", "add_session", "remove_session", "list_sessions"]

/-- Request types guarded by the per-database membership clause of
`DatabaseServer.authorize` (server.py lines 327-329). -/
def databaseRequests : List String :=
  ["new_batch", "restore_database", "remove_database", "add_attachment", "remove_attachment"]

/-- Session record as used by `DatabaseServer.authorize`: admin flag,
`create_allowed` flag and the optional list of allowed database names. -/
structure Session where
  isAdmin : Bool
  createAllowed : Bool
  databases : Option (List String)
  deriving Repr, DecidableEq

/-- Possible outcomes of evaluating the authorization check. -/
inductive AuthOutcome where
  | ok
  | permissionError
  | typeError
  deriving Repr, DecidableEq

/-- Shallow embedding of `DatabaseServer.authorize` (server.py lines 316-337).
The Python guard is a single short-circuited boolean expression; the third
clause reads `not self.current_session['databases'] or query('path') not in
self.current_session['databases']`.  Because `query` is a dict, the call
`query('path')` raises `TypeError` whenever it is evaluated, i.e. whenever the
request type is one of the five database operations and the session's allowed
list is non-empty; this is modelled by `AuthOutcome.typeError`.  The `path`
argument of the request is therefore never consulted. -/
def authorize (session : Session) (requestType : String) (path : String) : AuthOutcome :=
  if session.isAdmin then
    AuthOutcome.ok
  else if requestType ∈ adminOnlyRequests then
    AuthOutcome.permissionError
  else if requestType = "create_database" && !session.createAllowed then
    AuthOutcome.permissionError
  else if requestType ∈ databaseRequests then
    match session.databases, path with
    | none, _ => AuthOutcome.permissionError
    | some [], _ => AuthOutcome.permissionError
    | some (_ :: _), _ => AuthOutcome.typeError
  else
    AuthOutcome.ok

/-! ## Framed connection (connection.py, `Connection.send` / `Connection.send_file`) -/

/-- Little-endian decimal digits of a natural number computed with explicit
fuel; `decDigitsAux n n` terminates for every `n`. -/
def decDigitsAux : Nat → Nat → List Nat
  | 0, _ => []
  | _ + 1, 0 => []
  | fuel + 1, n + 1 => ((n + 1) % 10) :: decDigitsAux fuel ((n + 1) / 10)

/-- Decimal digit string of `n`, most significant digit first, exactly as the
Python builtin `str` renders a nonnegative integer (a single `0` for zero). -/
def decimalDigits (n : Nat) : List Nat :=
  if n = 0 then [0] else (decDigitsAux n n).reverse

/-- Python `str.zfill`: left-pad a digit string with zeros up to `width`. -/
def zfill (width : Nat) (ds : List Nat) : List Nat :=
  List.replicate (width - ds.length) 0 ++ ds

/-- ASCII code of a decimal digit. -/
def asciiDigit (d : Nat) : Nat := 48 + d

/-- Header size used by every `Connection` (connection.py line 23,
`header_size=15`). -/
def headerSize : Nat := 15

/-- Shallow embedding of the bytes `Connection.send` puts on the wire
(connection.py line 72-73): the decimal length of the payload zero-filled to
`header_size - 1 = 14` ASCII characters, one type-tag byte, then the payload. -/
def sendFrame (tag : Nat) (payload : List Nat) : List Nat :=
  (zfill (headerSize - 1) (decimalDigits payload.length)).map asciiDigit ++ [tag] ++ payload

/-- Shallow embedding of the length prefix `Connection.send_file` sends
(connection.py line 161): the decimal byte size zero-filled to 15 ASCII
characters. -/
def sendFilePrefix (size : Nat) : List Nat :=
  (zfill headerSize (decimalDigits size)).map asciiDigit

/-- Full byte stream of a bulk file transfer: 15-character ASCII length prefix
followed by the raw file bytes (connection.py lines 159-170). -/
def sendFileWire (contents : List Nat) : List Nat :=
  sendFilePrefix contents.length ++ contents

/-- Little-endian fixed-width binary encoding of `n` in `w` bytes; this is the
format the specification claims for frame and file length prefixes. -/
def leBytes (w n : Nat) : List Nat :=
  (List.range w).map (fun i => n / 256 ^ i % 256)

/-- Value of a most-significant-first digit list, as Python `int` parses it. -/
def beDigitsToNat (ds : List Nat) : Nat :=
  ds.foldl (fun acc d => acc * 10 + d) 0

/-- Parse a run of ASCII decimal characters, as `int(data.decode())` does in
`Connection.recv` / `Connection.recv_file`. -/
def parseAsciiNat (bs : List Nat) : Nat :=
  beDigitsToNat (bs.map (fun b => b - 48))

/-! ## Batch content hash (database_creation.py, `create_database_header`) -/

/-- Embedding of the digest input built by `create_database_header`
(database_creation.py lines 233-239): `hasher.update(table_hash.encode())` for
each value of the `table_hashes` mapping in mapping (insertion) order; the
resulting digest is the hash of the concatenation of the updates.  Table names
are modelled by an arbitrary linearly ordered type and hash strings by byte
lists. -/
def contentHashInput {β : Type} (tableHashes : List (β × List Nat)) : List Nat :=
  tableHashes.foldl (fun acc t => acc ++ t.2) []

/-- Content hash of the current batch as computed by `create_database_header`,
with the hash function `H` abstract. -/
def contentHash {β : Type} (H : List Nat → List Nat)
    (tableHashes : List (β × List Nat)) : List Nat :=
  H (contentHashInput tableHashes)

/-- Insert one named hash into a name-sorted list. -/
def insertSortedByName {β : Type} [LinearOrder β] (p : β × List Nat) :
    List (β × List Nat) → List (β × List Nat)
  | [] => [p]
  | q :: rest => if p.1 ≤ q.1 then p :: q :: rest else q :: insertSortedByName p rest

/-- Insertion sort of the table-hash list by table name (ascending), as
`sorted(tables)` would order the names. -/
def sortByName {β : Type} [LinearOrder β] :
    List (β × List Nat) → List (β × List Nat)
  | [] => []
  | p :: rest => insertSortedByName p (sortByName rest)

/-- Modelled from the spec sentence `content_hash of a batch =
hash(concatenation of per-table header hashes, in table-name order)`: the
digest input taken in sorted table-name order. -/
def contentHashSpec {β : Type} [LinearOrder β] (H : List Nat → List Nat)
    (tableHashes : List (β × List Nat)) : List Nat :=
  H (contentHashInput (sortByName tableHashes))

/-! ## Integrity check (database.py, `Database.check`) -/

/-- One file examined by `Database.check`: its name, the hash recorded in a
manifest, and the hash recomputed from the bytes on disk. -/
structure CheckedFile where
  filename : String
  recorded : List Nat
  actual : List Nat
  deriving Repr, DecidableEq

/-- One table examined by `Database.check`: the field files listed in the last
entry of the table manifest's batch list, plus the table header file whose
recorded hash lives in the top manifest's `table_hashes`. -/
structure CheckedTable where
  name : String
  fieldFiles : List CheckedFile
  headerRecorded : List Nat
  headerActual : List Nat
  deriving Repr, DecidableEq

/-- A database as seen by `Database.check`: its directory path, its tables and
the attachments recorded in the top manifest.  All listed files are assumed to
exist (their recomputed hashes are given). -/
structure CheckedDatabase where
  path : String
  tables : List CheckedTable
  attachments : List CheckedFile
  deriving Repr, DecidableEq

/-- Path concatenation as `os.path.join` behaves on relative components. -/
def joinPath (a b : String) : String := a ++ "/" ++ b

/-- Files of one table reported corrupted by `Database.check` (database.py
lines 288-305): field files of the last batch whose recomputed hash differs
from the recorded one, then the table header file, each joined onto the
database path. -/
def checkTable (dbPath : String) (t : CheckedTable) : List String :=
  t.fieldFiles.filterMap (fun f =>
    if f.recorded ≠ f.actual then some (joinPath (joinPath dbPath t.name) f.filename)
    else none) ++
  (if t.headerRecorded ≠ t.headerActual
    then [joinPath (joinPath dbPath t.name) "#header.json"] else [])

/-- Shallow embedding of `Database.check` (database.py lines 275-327): the
function walks every table and every attachment, never raises, and returns the
accumulated list of corrupted files.  Each reported entry is
`os.path.join(self.path, ...)`, i.e. the database path joined with the
relative path. -/
def check (db : CheckedDatabase) : List String :=
  (db.tables.map (checkTable db.path)).flatten ++
  db.attachments.filterMap (fun a =>
    if a.recorded ≠ a.actual then some (joinPath (joinPath db.path ".attachments") a.filename)
    else none)

/-- Concrete database used to exercise `check`: one table `T` with one
corrupted field file `F.bin` and an intact header, no attachments. -/
def dbSample : CheckedDatabase :=
  { path := "/db",
    tables := [{ name := "T",
                 fieldFiles := [{ filename := "F.bin", recorded := [0], actual := [1] }],
                 headerRecorded := [7], headerActual := [7] }],
    attachments := [] }

/-! ## Dual-layout field files (field_data.py, `FieldData.read`;
database_creation.py, `create_transpose`) -/

/-- Entry `(l, d)` of a value matrix stored as a list of rows. -/
def entryAt (M : List (List ℚ)) (l d : Nat) : ℚ := (M.getD l []).getD d 0

/-- Row-major block of a sealed field file: the matrix rows flattened. -/
def rowMajorBlock (M : List (List ℚ)) : List ℚ := M.flatten

/-- Column-major block appended at seal time by `create_transpose`
(database_creation.py lines 177-185): for each column index `d`, the column's
`n_LIDs` values contiguously. -/
def colMajorBlock (M : List (List ℚ)) (nLIDs nIDs : Nat) : List ℚ :=
  (List.range nIDs).flatMap (fun d => (List.range nLIDs).map (fun l => entryAt M l d))

/-- A sealed field file: row-major block followed by the column-major block of
the same values (spec section 3 and database_creation.py). -/
def fieldFileFlat (M : List (List ℚ)) (nLIDs nIDs : Nat) : List ℚ :=
  rowMajorBlock M ++ colMajorBlock M nLIDs nIDs

/-- By-LID path of `FieldData.read` (field_data.py lines 109-117): the
row-major block is mapped with shape `(n_LIDs, n_IDs)` at offset 0, so
`data_by_LID[l, d]` is flat element `l * n_IDs + d`; each requested LID row is
gathered at the requested ID indexes. -/
def byLIDRead (file : List ℚ) (nIDs : Nat) (lidIdxs idIdxs : List Nat) : List (List ℚ) :=
  lidIdxs.map (fun l => idIdxs.map (fun d => file.getD (l * nIDs + d) 0))

/-- By-ID path of `FieldData.read` (field_data.py lines 119-128): the second
block is mapped with `shape=self.shape = (n_LIDs, n_IDs)`, `order='C'` and
offset `n_LIDs * n_IDs * itemsize`, so `data_by_ID[i, j]` is element
`i * n_IDs + j` of the transpose block; the code then gathers
`data_by_ID[:, iIDs[ID]][iLIDs]` for each requested ID. -/
def byIDRead (file : List ℚ) (nLIDs nIDs : Nat) (lidIdxs idIdxs : List Nat) : List (List ℚ) :=
  lidIdxs.map (fun l => idIdxs.map (fun d => (file.drop (nLIDs * nIDs)).getD (l * nIDs + d) 0))

/-- Shallow embedding of `FieldData.read` for plain (non-combination) requests
(field_data.py lines 82-128): `None` on either axis selects all indexes, and
the by-LID view is used exactly when strictly fewer LIDs than IDs are
requested.  LID and ID values are identified with their indexes (the code maps
values through `_iLIDs` / `_iIDs`). -/
def fieldRead (M : List (List ℚ)) (nLIDs nIDs : Nat)
    (lids ids : Option (List Nat)) : List (List ℚ) :=
  let lidIdxs := lids.getD (List.range nLIDs)
  let idIdxs := ids.getD (List.range nIDs)
  if lidIdxs.length < idIdxs.length then
    byLIDRead (fieldFileFlat M nLIDs nIDs) nIDs lidIdxs idIdxs
  else
    byIDRead (fieldFileFlat M nLIDs nIDs) nLIDs nIDs lidIdxs idIdxs

/-- Value matrix of the failing input: 2 LIDs, 3 IDs. -/
def mQuad : List (List ℚ) := [[1, 2, 3], [4, 5, 6]]

/-! ## Level-2 aggregation (queries.py, `max_load` and `min_load`) -/

/-- Strict IEEE-style greater-than on possibly-NaN values (`none` models NaN):
any comparison involving NaN is false, matching numpy with invalid warnings
ignored (queries.py line 5). -/
def gtN {α : Type} [LinearOrder α] : Option α → Option α → Bool
  | some x, some y => decide (y < x)
  | _, _ => false

/-- One step of the row loop of `max_load` (queries.py lines 63-69): the
accumulator pair `(out[j], LIDs_out[j])` is replaced by the candidate row pair
when `array[i, j] > out[j]` or `out[j]` is NaN. -/
def maxStep {α : Type} [LinearOrder α] (acc cand : Option α × Int) : Option α × Int :=
  if gtN cand.1 acc.1 || acc.1.isNone then cand else acc

/-- One step of the row loop of `min_load` (queries.py lines 101-107): replace
when `array[i, j] < out[j]` or `out[j]` is NaN. -/
def minStep {α : Type} [LinearOrder α] (acc cand : Option α × Int) : Option α × Int :=
  if gtN acc.1 cand.1 || acc.1.isNone then cand else acc

/-- Column `j` of the value matrix zipped with the LID vector: the data stream
consumed by `max_load` / `min_load` for one ID. -/
def columnPairs {α : Type} [LinearOrder α] (array : List (List (Option α))) (lids : List Int) (j : Nat) :
    List (Option α × Int) :=
  (array.map (fun row => row.getD j none)).zip lids

/-- `max_load` on one column (queries.py lines 38-69).  With `use_previous_agg`
false the first row always initializes the accumulator (lines 57-61); with it
true the previous aggregate stored in `prev` is folded through the same
comparison as every later row. -/
def maxLoadCol {α : Type} [LinearOrder α] (usePreviousAgg : Bool) (prev : Option α × Int) :
    List (Option α × Int) → Option α × Int
  | [] => prev
  | p :: rest =>
    if usePreviousAgg then (p :: rest).foldl maxStep prev else rest.foldl maxStep p

/-- `min_load` on one column (queries.py lines 76-107). -/
def minLoadCol {α : Type} [LinearOrder α] (usePreviousAgg : Bool) (prev : Option α × Int) :
    List (Option α × Int) → Option α × Int
  | [] => prev
  | p :: rest =>
    if usePreviousAgg then (p :: rest).foldl minStep prev else rest.foldl minStep p

/-- The pair `(m, lid)` is the level-2 MAX aggregate of a column in the sense
of the specification: `m` bounds every non-NaN value of the column, and the
column splits as `pre ++ (some m, lid) :: post` with no occurrence of the
maximum in `pre`, i.e. `lid` is the LID of the earliest row attaining `m`. -/
def IsColMax {α : Type} [LinearOrder α] (ps : List (Option α × Int)) (m : α) (lid : Int) : Prop :=
  (∀ p ∈ ps, ∀ x : α, p.1 = some x → x ≤ m) ∧
  ∃ pre post, ps = pre ++ (some m, lid) :: post ∧ ∀ p ∈ pre, p.1 ≠ some m

/-- The pair `(m, lid)` is the level-2 MIN aggregate of a column: dual of
`IsColMax`. -/
def IsColMin {α : Type} [LinearOrder α] (ps : List (Option α × Int)) (m : α) (lid : Int) : Prop :=
  (∀ p ∈ ps, ∀ x : α, p.1 = some x → m ≤ x) ∧
  ∃ pre post, ps = pre ++ (some m, lid) :: post ∧ ∀ p ∈ pre, p.1 ≠ some m

/-! ## Load-case combination (queries.py `combine`;
database.py `combine_load_cases`) -/

/-- Row `i` of the basic load-case scratch matrix. -/
def rowAt {α : Type} [CommRing α] (scratch : List (List α)) (i : Nat) : List α := scratch.getD i []

/-- One term of the inner loop of the numba kernel `combine` (queries.py lines
133-138): `out[j] += array[index, j] * coeff` for every column `j`. -/
def addScaled {α : Type} [CommRing α] (out row : List α) (coeff : α) : List α :=
  out.zipWith (fun o v => o + v * coeff) row

/-- Shallow embedding of `combine` (queries.py lines 110-138): the output row
is zeroed, then each `(index, coefficient)` pair accumulates
`array[index, j] * coeff`; the pairing truncates to the index list exactly as
the Python loop ranges over `len(indexes)`. -/
def combineRow {α : Type} [CommRing α] (scratch : List (List α)) (m : Nat)
    (indexes : List Nat) (coeffs : List α) : List α :=
  (indexes.zip coeffs).foldl (fun out ic => addScaled out (rowAt scratch ic.1) ic.2)
    (List.replicate m 0)

/-- One combination entry as prepared by `Database.query` (database.py lines
616-619): the reserved scratch index of this LID in the basic block (`none`
when the LID is not in `LIDs_queried_index`), the scratch indexes to combine
and their coefficients.  An entry with no coefficients is a pure load case. -/
structure Combination (α : Type) where
  index : Option Nat
  indexes : List Nat
  coeffs : List α
  deriving Repr, DecidableEq

/-- Shallow embedding of `combine_load_cases` (database.py lines 994-1027):
combinations are processed in input order; each combined row is produced by
`combine` and appended to the output; the row is stored back into the scratch
block only under the Python truthiness test `if index:`, i.e. only when the
reserved index is present and non-zero.  A pure entry copies its scratch row
(its reserved index is always present for well-formed queries; `none` here
would raise in Python and is mapped to an empty row). -/
def combineLoadCases {α : Type} [CommRing α] (m : Nat) :
    List (List α) → List (Combination α) → List (List α) × List (List α)
  | scratch, [] => (scratch, [])
  | scratch, c :: rest =>
    if c.coeffs.isEmpty then
      let row := match c.index with
        | some i => rowAt scratch i
        | none => []
      let next := combineLoadCases m scratch rest
      (next.1, row :: next.2)
    else
      let row := combineRow scratch m c.indexes c.coeffs
      let scratch' := match c.index with
        | some i => if i ≠ 0 then scratch.set i row else scratch
        | none => scratch
      let next := combineLoadCases m scratch' rest
      (next.1, row :: next.2)

/-- Modelled from the spec sentence (section 4.E, LID combination step 4): the
combined row is written back into the scratch block at its reserved index
whenever the combined LID has one, with no further condition. -/
def combineLoadCasesSpec {α : Type} [CommRing α] (m : Nat) :
    List (List α) → List (Combination α) → List (List α) × List (List α)
  | scratch, [] => (scratch, [])
  | scratch, c :: rest =>
    if c.coeffs.isEmpty then
      let row := match c.index with
        | some i => rowAt scratch i
        | none => []
      let next := combineLoadCasesSpec m scratch rest
      (next.1, row :: next.2)
    else
      let row := combineRow scratch m c.indexes c.coeffs
      let scratch' := match c.index with
        | some i => scratch.set i row
        | none => scratch
      let next := combineLoadCasesSpec m scratch' rest
      (next.1, row :: next.2)

/-! ## Query memory cap (database.py, `MemoryHandler.__init__`) -/

/-- Bytes needed per load case: number of level-0 fields, times number of
queried IDs, times dtype item size (database.py line 849). -/
def sizePerLC (nFields0 nIDs itemsize : Nat) : Nat := nFields0 * nIDs * itemsize

/-- The list of full LID slices `slice(i * L, (i + 1) * L)` built by
`MemoryHandler.__init__` (database.py lines 857-858). -/
def fullSlices (L q : Nat) : List (Nat × Nat) :=
  (List.range q).map (fun i => (i * L, (i + 1) * L))

/-- Shallow embedding of the batch-splitting logic of `MemoryHandler.__init__`
(database.py lines 851-866), returning the `(start, stop)` LID slices.  Like
the Python it fails with `MemoryError` when an over-limit query aggregates
below level 2, and with `ZeroDivisionError` when `LIDs_per_batch =
max_memory // size_per_LC` is zero and `len(LIDs) // LIDs_per_batch` is
evaluated; the remainder slice starts at the stop of the last full slice
(`self.batches[-1].stop`, an `IndexError` if there were none). -/
def memBatches (maxMemory szPerLC nLIDs level : Nat) :
    Except String (List (Nat × Nat)) :=
  if szPerLC * nLIDs > maxMemory then
    if level < 2 then Except.error "MemoryError"
    else if maxMemory / szPerLC = 0 then Except.error "ZeroDivisionError"
    else if nLIDs % (maxMemory / szPerLC) ≠ 0 then
      match (fullSlices (maxMemory / szPerLC) (nLIDs / (maxMemory / szPerLC))).getLast? with
      | some last =>
        Except.ok (fullSlices (maxMemory / szPerLC) (nLIDs / (maxMemory / szPerLC)) ++
          [(last.2, last.2 + nLIDs % (maxMemory / szPerLC))])
      | none => Except.error "IndexError"
    else Except.ok (fullSlices (maxMemory / szPerLC) (nLIDs / (maxMemory / szPerLC)))
  else Except.ok [(0, nLIDs)]

/-- The incremental-aggregation flag `Database.query` passes for batch
`batch_index` (database.py line 689): `use_previous_agg = batch_index > 0`. -/
def usePreviousAggFlag (batchIndex : Nat) : Bool := decide (batchIndex > 0)

/-! ## Batch ingestion, rollback and sealing (database.py `Database.new_batch`
and `Database.restore`; database_creation.py `create_transpose` and
`assembly_database`) -/

/-- On-disk state of one table: the batch list of its manifest (name and
cumulative LID count at each seal point), the LID vector, and the rows of the
row-major field block (one representative field; the sealed file also holds
the transpose block, a function of these rows). -/
structure TableState where
  sealedBatches : List (String × Nat)
  lids : List Int
  rows : List (List ℚ)
  deriving Repr, DecidableEq

/-- On-disk state of a database: the batch names of the top manifest, the
manifest-listed tables, and table directories present on disk but absent from
the manifest (left behind by failed ingestions; `Database.load` never sees
them). -/
structure DbState where
  batches : List String
  tables : List (String × TableState)
  untracked : List (String × TableState)
  deriving Repr, DecidableEq

/-- Errors surfaced by the ingestion path. -/
inductive DbErr where
  | alreadyExists
  | indexError
  | zeroDivision
  | ingest (msg : String)
  deriving Repr, DecidableEq

/-- Rows appended to one existing table during `create_tables`. -/
structure TableAppend where
  name : String
  newLids : List Int
  newRows : List (List ℚ)
  deriving Repr, DecidableEq

/-- Outcome of the `create_tables` phase of an ingestion: it appends rows to
existing tables and creates new table directories, then either returns or
raises with the writes already on disk (field files are opened for append and
never rewritten). -/
inductive Ingest where
  | ok (apps : List TableAppend) (newTables : List (String × TableState))
  | fail (apps : List TableAppend) (newTables : List (String × TableState)) (msg : String)
  deriving Repr, DecidableEq

/-- Apply the appends of `create_tables` to the manifest-listed tables. -/
def appendTables (tables : List (String × TableState)) (apps : List TableAppend) :
    List (String × TableState) :=
  tables.map (fun t =>
    match apps.find? (fun a => a.name == t.1) with
    | some a => (t.1, { t.2 with lids := t.2.lids ++ a.newLids,
                                 rows := t.2.rows ++ a.newRows })
    | none => t)

/-- First index of `b` in a list of names (Python `list.index`). -/
def firstIdxOf (b : String) : List String → Option Nat
  | [] => none
  | x :: rest => if x = b then some 0 else (firstIdxOf b rest).map (· + 1)

/-- Shallow embedding of `Database.restore` (database.py lines 474-523) as a
state transformer for a restore point `b`: every table whose manifest knows
`b` is truncated (batch list, LID vector, field rows) to the cumulative LID
count recorded at `b`; tables that do not know `b` are removed; the manifest
batch list is cut at `batch_index + 1` where `batch_index` is the largest
per-table first index of `b` (the Python folds `batch_index =
max(batch_index, index)` from 0).  The re-assembly of transposes, hashes and
manifests performed at the end of `restore` is content-determined and elided. -/
def restoreTo (st : DbState) (b : String) : DbState :=
  { batches := st.batches.take
      ((st.tables.filterMap
        (fun t => firstIdxOf b (t.2.sealedBatches.map Prod.fst))).foldl max 0 + 1),
    tables := st.tables.filterMap (fun t =>
      match firstIdxOf b (t.2.sealedBatches.map Prod.fst) with
      | some i =>
        some (t.1, { sealedBatches := t.2.sealedBatches.take (i + 1),
                     lids := t.2.lids.take ((t.2.sealedBatches.getD i ("", 0)).2),
                     rows := t.2.rows.take ((t.2.sealedBatches.getD i ("", 0)).2) })
      | none => none),
    untracked := st.untracked }

/-- The `create_transpose` hazard for one table (database_creation.py lines
160-161): `n_IDs_per_chunk = int(max_chunk_size // (n_LIDs * itemsize))` is
computed and then `n_IDs // n_IDs_per_chunk` divides by it unguarded, so
sealing the field raises `ZeroDivisionError` exactly when that quotient is
zero. -/
def transposeHazard (maxChunk itemsize : Nat) (t : TableState) : Bool :=
  maxChunk / (t.lids.length * itemsize) == 0

/-- Shallow embedding of `Database.new_batch` (database.py lines 433-472),
with `maxChunk` standing for `Database.max_memory`, which line 470 hands to
`assembly_database` as the transpose chunk budget.  The error value carries
the resulting on-disk state.  The batch-name freshness check precedes every
mutation; only the `create_tables` call sits inside `try`; on its failure the
old manifest is reloaded and the database restored to the last sealed batch
(an `IndexError` when the manifest lists no batch), re-raising the ingestion
error; the assembly phase runs outside the guard, so a transpose
`ZeroDivisionError` escapes with the appended rows still on disk and no
rollback performed. -/
def newBatch (st : DbState) (name : String) (ing : Ingest)
    (maxChunk itemsize : Nat) : Except (DbErr × DbState) DbState :=
  if name ∈ st.batches then Except.error (DbErr.alreadyExists, st)
  else
    match ing with
    | Ingest.fail apps newTables msg =>
      let dirty : DbState :=
        { batches := st.batches,
          tables := appendTables st.tables apps,
          untracked := st.untracked ++ newTables }
      match st.batches.getLast? with
      | none => Except.error (DbErr.indexError, dirty)
      | some b =>
        let restored := restoreTo dirty b
        if restored.tables.any (fun t => transposeHazard maxChunk itemsize t.2) then
          Except.error (DbErr.zeroDivision, restored)
        else Except.error (DbErr.ingest msg, restored)
    | Ingest.ok apps newTables =>
      let tables1 := appendTables st.tables apps ++ newTables
      if tables1.any (fun t => transposeHazard maxChunk itemsize t.2) then
        Except.error (DbErr.zeroDivision,
          { batches := st.batches,
            tables := appendTables st.tables apps,
            untracked := st.untracked ++ newTables })
      else
        Except.ok
          { batches := st.batches ++ [name],
            tables := tables1.map (fun t =>
              (t.1, { t.2 with
                sealedBatches := t.2.sealedBatches ++ [(name, t.2.lids.length)] })),
            untracked := st.untracked }

/-- Manifest invariants of a database sealed at its last batch: the last
manifest batch is recorded exactly once, as the last entry, in every table's
batch list together with the table's current LID count; row data matches the
LID count; per-table batch lists never exceed the manifest; and, unless the
manifest holds a single batch, some table spans the whole manifest. -/
def WellSealed (st : DbState) : Prop :=
  ∃ b, st.batches.getLast? = some b ∧
    (∀ t ∈ st.tables,
      t.2.sealedBatches.getLast? = some (b, t.2.lids.length) ∧
      t.2.rows.length = t.2.lids.length ∧
      b ∉ t.2.sealedBatches.dropLast.map Prod.fst ∧
      t.2.sealedBatches.length ≤ st.batches.length) ∧
    (st.batches.length = 1 ∨
      ∃ t ∈ st.tables, t.2.sealedBatches.length = st.batches.length)

/-- Fresh database as produced by `create_database`: empty manifest, no
tables. -/
def dbFresh : DbState := { batches := [], tables := [], untracked := [] }

/-- A table directory created by a failed first ingestion. -/
def tableNew : TableState :=
  { sealedBatches := [], lids := [100], rows := [[1, 2]] }

/-- A table sealed at batch `b1` with two LIDs. -/
def tableT : TableState :=
  { sealedBatches := [("b1", 2)], lids := [1, 2], rows := [[1], [2]] }

/-- A database with one sealed batch `b1` and one table `T`. -/
def dbOne : DbState :=
  { batches := ["b1"], tables := [("T", tableT)], untracked := [] }

/-! ## Theorems -/

theorem decDigitsAux_eq_digits (fuel : Nat) :
    ∀ n : Nat, n ≤ fuel → decDigitsAux fuel n = Nat.digits 10 n := by
  induction fuel with
  | zero =>
    intro n hn
    interval_cases n
    simp [decDigitsAux]
  | succ fuel ih =>
    intro n hn
    match n with
    | 0 => simp [decDigitsAux]
    | m + 1 =>
      rw [decDigitsAux, Nat.digits_def' (by norm_num : (1:Nat) < 10) (Nat.succ_pos m)]
      congr 1
      exact ih _ (Nat.le_of_lt_succ (Nat.lt_of_lt_of_le
        (Nat.div_lt_self (Nat.succ_pos m) (by norm_num)) hn))

theorem decimalDigits_eq_digits (n : Nat) (hn : n ≠ 0) :
    decimalDigits n = (Nat.digits 10 n).reverse := by
  rw [decimalDigits, if_neg hn, decDigitsAux_eq_digits n n le_rfl]

theorem beDigitsToNat_append_singleton (xs : List Nat) (d : Nat) :
    beDigitsToNat (xs ++ [d]) = beDigitsToNat xs * 10 + d := by
  simp [beDigitsToNat, List.foldl_append]

theorem beDigitsToNat_reverse (l : List Nat) :
    beDigitsToNat l.reverse = Nat.ofDigits 10 l := by
  induction l with
  | nil => simp [beDigitsToNat, Nat.ofDigits_nil]
  | cons d rest ih =>
    rw [List.reverse_cons, beDigitsToNat_append_singleton, ih, Nat.ofDigits_cons]
    ring

theorem foldl_replicate_zero (k : Nat) :
    List.foldl (fun acc d => acc * 10 + d) 0 (List.replicate k 0) = 0 := by
  induction k with
  | zero => rfl
  | succ k ih => simpa [List.replicate_succ] using ih

theorem beDigitsToNat_zfill (w : Nat) (ds : List Nat) :
    beDigitsToNat (zfill w ds) = beDigitsToNat ds := by
  simp [zfill, beDigitsToNat, List.foldl_append, foldl_replicate_zero]

theorem parseAsciiNat_map_asciiDigit (ds : List Nat) :
    parseAsciiNat (ds.map asciiDigit) = beDigitsToNat ds := by
  simp [parseAsciiNat, asciiDigit, List.map_map, Function.comp_def]

theorem beDigitsToNat_decimalDigits (n : Nat) :
    beDigitsToNat (decimalDigits n) = n := by
  by_cases hn : n = 0
  · subst hn; rfl
  · rw [decimalDigits_eq_digits n hn, beDigitsToNat_reverse, Nat.ofDigits_digits]

theorem decimalDigits_length_le (n w : Nat) (hw : 0 < w) (h : n < 10 ^ w) :
    (decimalDigits n).length ≤ w := by
  by_cases hn : n = 0
  · subst hn; simpa [decimalDigits] using hw
  · rw [decimalDigits_eq_digits n hn, List.length_reverse,
      Nat.digits_len 10 n (by norm_num) hn]
    have := Nat.log_lt_of_lt_pow hn h
    omega

theorem zfill_length (w : Nat) (ds : List Nat) (h : ds.length ≤ w) :
    (zfill w ds).length = w := by
  simp [zfill]
  omega

theorem contentHashInput_eq_flatten {β : Type} (tableHashes : List (β × List Nat)) :
    contentHashInput tableHashes = (tableHashes.map Prod.snd).flatten := by
  suffices h : ∀ acc : List Nat,
      tableHashes.foldl (fun acc t => acc ++ t.2) acc =
        acc ++ (tableHashes.map Prod.snd).flatten by
    simpa [contentHashInput] using h []
  induction tableHashes with
  | nil => intro acc; simp
  | cons p rest ih => intro acc; simp [ih, List.append_assoc]

/-- C5 (counterexample): a database whose `table_hashes` mapping lists table 1
(hash `[2]`) before table 0 (hash `[1]`), i.e. whose tables were created in
that order, hashes the bytes `[2] ++ [1]`, not the sorted-name concatenation
`[1] ++ [2]` the claim prescribes; with the hash function instantiated to the
identity the two digests differ. -/
theorem C5_counterexample :
    contentHash (fun bs => bs) [((1 : Nat), [2]), (0, [1])] ≠
      contentHashSpec (fun bs => bs) [((1 : Nat), [2]), (0, [1])] ∧
    contentHashInput [((1 : Nat), [2]), (0, [1])] ≠
      contentHashInput (sortByName [((1 : Nat), [2]), (0, [1])]) := by
  constructor <;> decide

/-- C5 (amended): the recorded `content_hash` equals the hash of the
concatenation of the per-table header hashes in the order in which they appear
in the `table_hashes` mapping (table creation order), and that value is not
independent of this order: permuting the mapping changes the hashed input. -/
theorem C5_content_hash_order (H : List Nat → List Nat)
    (tableHashes : List (String × List Nat)) :
    contentHash H tableHashes = H ((tableHashes.map Prod.snd).flatten) ∧
    contentHash (fun bs => bs) [((0 : Nat), [1]), (1, [2])] ≠
      contentHash (fun bs => bs) [((1 : Nat), [2]), (0, [1])] := by
  refine ⟨by rw [contentHash, contentHashInput_eq_flatten], by decide⟩

/-- C9 (counterexample): on a database rooted at `/db` with exactly one
corrupted file `T/F.bin`, `check` returns the joined path `/db/T/F.bin`, not
the relative path `T/F.bin` the claim prescribes. -/
theorem C9_counterexample :
    check dbSample = ["/db/T/F.bin"] ∧ check dbSample ≠ ["T/F.bin"] := by
  constructor <;> decide

theorem mem_checkTable (dbPath : String) (t : CheckedTable) (p : String) :
    p ∈ checkTable dbPath t ↔
      (∃ f ∈ t.fieldFiles, f.recorded ≠ f.actual ∧
        p = joinPath (joinPath dbPath t.name) f.filename) ∨
      (t.headerRecorded ≠ t.headerActual ∧
        p = joinPath (joinPath dbPath t.name) "#header.json") := by
  simp only [checkTable, List.mem_append, List.mem_filterMap]
  constructor
  · rintro (⟨f, hf, hsome⟩ | hmem)
    · by_cases hne : f.recorded = f.actual
      · simp [hne] at hsome
      · simp only [hne, ne_eq, not_false_iff, if_true] at hsome
        exact Or.inl ⟨f, hf, hne, (Option.some_inj.mp hsome).symm⟩
    · by_cases hh : t.headerRecorded = t.headerActual
      · simp [hh] at hmem
      · simp only [hh, ne_eq, not_false_iff, if_true, List.mem_singleton] at hmem
        exact Or.inr ⟨hh, hmem⟩
  · rintro (⟨f, hf, hne, hp⟩ | ⟨hh, hp⟩)
    · exact Or.inl ⟨f, hf, by simp [hne, hp]⟩
    · exact Or.inr (by simp [hh, hp])

/-- C9 (amended): `check` is a total function (it raises nothing however many
files are corrupted); a path is reported exactly when some manifest-listed
file's recomputed hash differs from its recorded hash, the reported entry
being the database path joined with the file's relative path (not the bare
relative path); and the result is empty exactly when every listed file's
recomputed hash matches, the database state being untouched. -/
theorem C9_check_reports (db : CheckedDatabase) :
    (∀ p : String, p ∈ check db ↔
      (∃ t ∈ db.tables,
        (∃ f ∈ t.fieldFiles, f.recorded ≠ f.actual ∧
          p = joinPath (joinPath db.path t.name) f.filename) ∨
        (t.headerRecorded ≠ t.headerActual ∧
          p = joinPath (joinPath db.path t.name) "#header.json")) ∨
      (∃ a ∈ db.attachments, a.recorded ≠ a.actual ∧
        p = joinPath (joinPath db.path ".attachments") a.filename)) ∧
    (check db = [] ↔
      (∀ t ∈ db.tables, (∀ f ∈ t.fieldFiles, f.recorded = f.actual) ∧
        t.headerRecorded = t.headerActual) ∧
      ∀ a ∈ db.attachments, a.recorded = a.actual) := by
  have hmem : ∀ p : String, p ∈ check db ↔
      (∃ t ∈ db.tables,
        (∃ f ∈ t.fieldFiles, f.recorded ≠ f.actual ∧
          p = joinPath (joinPath db.path t.name) f.filename) ∨
        (t.headerRecorded ≠ t.headerActual ∧
          p = joinPath (joinPath db.path t.name) "#header.json")) ∨
      (∃ a ∈ db.attachments, a.recorded ≠ a.actual ∧
        p = joinPath (joinPath db.path ".attachments") a.filename) := by
    intro p
    simp only [check, List.mem_append, List.mem_flatten, List.mem_map]
    constructor
    · rintro (⟨l, ⟨t, ht, rfl⟩, hp⟩ | hp)
      · exact Or.inl ⟨t, ht, (mem_checkTable db.path t p).mp hp⟩
      · simp only [List.mem_filterMap] at hp
        obtain ⟨a, ha, hsome⟩ := hp
        by_cases hne : a.recorded = a.actual
        · simp [hne] at hsome
        · simp only [hne, ne_eq, not_false_iff, if_true] at hsome
          exact Or.inr ⟨a, ha, hne, (Option.some_inj.mp hsome).symm⟩
    · rintro (⟨t, ht, hcase⟩ | ⟨a, ha, hne, hp⟩)
      · exact Or.inl ⟨checkTable db.path t, ⟨t, ht, rfl⟩, (mem_checkTable db.path t p).mpr hcase⟩
      · exact Or.inr (by simp only [List.mem_filterMap]; exact ⟨a, ha, by simp [hne, hp]⟩)
  refine ⟨hmem, ?_⟩
  rw [List.eq_nil_iff_forall_not_mem]
  constructor
  · intro h
    constructor
    · intro t ht
      constructor
      · intro f hf
        by_contra hne
        exact h _ ((hmem _).mpr (Or.inl ⟨t, ht, Or.inl ⟨f, hf, hne, rfl⟩⟩))
      · by_contra hne
        exact h _ ((hmem _).mpr (Or.inl ⟨t, ht, Or.inr ⟨hne, rfl⟩⟩))
    · intro a ha
      by_contra hne
      exact h _ ((hmem _).mpr (Or.inr ⟨a, ha, hne, rfl⟩))
  · rintro ⟨htab, hatt⟩ p hp
    rcases (hmem p).mp hp with ⟨t, ht, ⟨f, hf, hne, _⟩ | ⟨hne, _⟩⟩ | ⟨a, ha, hne, _⟩
    · exact hne ((htab t ht).1 f hf)
    · exact hne (htab t ht).2
    · exact hne (hatt a ha)

/-- C6 (code bug): on the 2-LID x 3-ID field `mQuad`, requesting all LIDs and
the single ID 0 takes the by-ID path (2 >= 1) and returns `[[1], [5]]`, while
the stored column read through the by-LID view is `[[1], [4]]`: mapping the
transpose block with shape `(n_LIDs, n_IDs)` in C order scrambles every
non-square field, so the dual-layout equivalence claimed by the spec fails. -/
theorem C6_dual_layout_bug :
    fieldRead mQuad 2 3 none (some [0]) = [[1], [5]] ∧
    byLIDRead (fieldFileFlat mQuad 2 3) 3 [0, 1] [0] = [[1], [4]] ∧
    fieldRead mQuad 2 3 none (some [0]) ≠ byLIDRead (fieldFileFlat mQuad 2 3) 3 [0, 1] [0] ∧
    entryAt mQuad 0 0 = 1 ∧ entryAt mQuad 1 0 = 4 := by
  refine ⟨by decide, by decide, by decide, by decide, by decide⟩

theorem gtN_eq_true_iff {α : Type} [LinearOrder α] {a b : Option α} :
    gtN a b = true ↔ ∃ x y : α, a = some x ∧ b = some y ∧ y < x := by
  cases a <;> cases b <;> simp [gtN]

theorem maxStep_eq_cand {α : Type} [LinearOrder α] {acc cand : Option α × Int}
    (h : (gtN cand.1 acc.1 || acc.1.isNone) = true) : maxStep acc cand = cand := by
  simp [maxStep, h]

theorem maxStep_eq_acc {α : Type} [LinearOrder α] {acc cand : Option α × Int}
    (h : ¬((gtN cand.1 acc.1 || acc.1.isNone) = true)) : maxStep acc cand = acc := by
  simp only [maxStep, if_neg h]

theorem foldl_maxStep_isColMax {α : Type} [LinearOrder α] (ps : List (Option α × Int)) :
    ∀ acc : Option α × Int, (acc.1 ≠ none ∨ ∃ p ∈ ps, p.1 ≠ none) →
      ∃ m lid, ps.foldl maxStep acc = (some m, lid) ∧ IsColMax (acc :: ps) m lid := by
  induction ps with
  | nil =>
    intro acc h
    have ha : ∃ a : α, acc.1 = some a := by
      rcases h with h | ⟨p, hp, _⟩
      · cases hacc : acc.1 with
        | none => exact absurd hacc h
        | some a => exact ⟨a, rfl⟩
      · simp at hp
    obtain ⟨a, ha⟩ := ha
    refine ⟨a, acc.2, by simp [← ha], ?_, [], [], by simp [← ha], by simp⟩
    rintro p hp x hx
    simp only [List.mem_singleton] at hp
    subst hp
    rw [ha] at hx
    exact le_of_eq (Option.some_inj.mp hx).symm
  | cons q rest ih =>
    intro acc h
    have hfold : (q :: rest).foldl maxStep acc = rest.foldl maxStep (maxStep acc q) := rfl
    by_cases hrep : (gtN q.1 acc.1 || acc.1.isNone) = true
    · -- the candidate `q` replaces the accumulator
      rw [hfold, maxStep_eq_cand hrep]
      have hacclt : ∀ x : α, acc.1 = some x → ∃ xq : α, q.1 = some xq ∧ x < xq := by
        intro x hx
        rw [hx] at hrep
        simp only [Option.isNone_some, Bool.or_false] at hrep
        obtain ⟨xq, y, hq1, hy, hlt⟩ := gtN_eq_true_iff.mp hrep
        exact ⟨xq, hq1, by rw [Option.some_inj.mp hy]; exact hlt⟩
      have hq' : q.1 ≠ none ∨ ∃ p ∈ rest, p.1 ≠ none := by
        rcases h with hacc | ⟨p, hp, hpne⟩
        · left
          cases hacc1 : acc.1 with
          | none => exact absurd hacc1 hacc
          | some a =>
            obtain ⟨xq, hq1, _⟩ := hacclt a hacc1
            rw [hq1]
            exact Option.some_ne_none xq
        · rcases List.mem_cons.mp hp with heq | hp2
          · subst heq; exact Or.inl hpne
          · exact Or.inr ⟨p, hp2, hpne⟩
      obtain ⟨m, lid, hres, hbound, pre, post, hsplit, hpre⟩ := ih q hq'
      have haccm : ∀ x : α, acc.1 = some x → x < m := by
        intro x hx
        obtain ⟨xq, hq1, hlt⟩ := hacclt x hx
        exact lt_of_lt_of_le hlt (hbound q (List.mem_cons_self q rest) xq hq1)
      refine ⟨m, lid, hres, ?_, acc :: pre, post, by rw [List.cons_append, ← hsplit], ?_⟩
      · rintro p hp x hx
        rcases List.mem_cons.mp hp with heq | hp2
        · subst heq
          exact le_of_lt (haccm x hx)
        · exact hbound p hp2 x hx
      · rintro p hp
        rcases List.mem_cons.mp hp with heq | hp2
        · subst heq
          intro hx
          exact absurd (haccm m hx) (lt_irrefl m)
        · exact hpre p hp2
    · -- the accumulator survives the comparison with `q`
      rw [hfold, maxStep_eq_acc hrep]
      have ha : ∃ a : α, acc.1 = some a := by
        cases hacc1 : acc.1 with
        | none => rw [hacc1] at hrep; simp at hrep
        | some a => exact ⟨a, rfl⟩
      obtain ⟨a, ha⟩ := ha
      have hqle : ∀ xq : α, q.1 = some xq → xq ≤ a := by
        intro xq hq1
        by_contra hlt
        push_neg at hlt
        refine hrep ?_
        rw [hq1, ha]
        simp only [Bool.or_eq_true]
        exact Or.inl (gtN_eq_true_iff.mpr ⟨xq, a, rfl, rfl, hlt⟩)
      obtain ⟨m, lid, hres, hbound, pre, post, hsplit, hpre⟩ :=
        ih acc (Or.inl (by rw [ha]; exact Option.some_ne_none a))
      have ham : a ≤ m := hbound acc (List.mem_cons_self acc rest) a ha
      refine ⟨m, lid, hres, ?_, ?_⟩
      · rintro p hp x hx
        rcases List.mem_cons.mp hp with heq | hp2
        · subst heq
          rw [ha] at hx
          exact le_trans (le_of_eq (Option.some_inj.mp hx).symm) ham
        · rcases List.mem_cons.mp hp2 with heq | hp3
          · subst heq
            exact le_trans (hqle x hx) ham
          · exact hbound p (List.mem_cons_of_mem acc hp3) x hx
      · rcases pre with _ | ⟨p0, pre2⟩
        · -- the accumulator itself attains the maximum
          simp only [List.nil_append, List.cons.injEq] at hsplit
          exact ⟨[], q :: rest, by rw [hsplit.1]; simp, by simp⟩
        · simp only [List.cons_append, List.cons.injEq] at hsplit
          obtain ⟨hp0, hrest⟩ := hsplit
          have hanem : acc.1 ≠ some m := by
            rw [hp0]
            exact hpre p0 (List.mem_cons_self p0 pre2)
          have haltm : a < m := by
            rcases lt_or_eq_of_le ham with h1 | h1
            · exact h1
            · rw [ha, h1] at hanem; exact absurd rfl hanem
          refine ⟨acc :: q :: pre2, post, by rw [hrest, hp0]; simp, ?_⟩
          rintro p hp
          rcases List.mem_cons.mp hp with heq | hp2
          · subst heq; exact hanem
          · rcases List.mem_cons.mp hp2 with heq | hp3
            · subst heq
              intro hqm
              exact absurd (lt_of_le_of_lt (hqle m hqm) haltm) (lt_irrefl m)
            · exact hpre p (List.mem_cons_of_mem p0 hp3)

theorem minStep_eq_cand {α : Type} [LinearOrder α] {acc cand : Option α × Int}
    (h : (gtN acc.1 cand.1 || acc.1.isNone) = true) : minStep acc cand = cand := by
  simp [minStep, h]

theorem minStep_eq_acc {α : Type} [LinearOrder α] {acc cand : Option α × Int}
    (h : ¬((gtN acc.1 cand.1 || acc.1.isNone) = true)) : minStep acc cand = acc := by
  simp only [minStep, if_neg h]

theorem foldl_minStep_isColMin {α : Type} [LinearOrder α] (ps : List (Option α × Int)) :
    ∀ acc : Option α × Int, (acc.1 ≠ none ∨ ∃ p ∈ ps, p.1 ≠ none) →
      ∃ m lid, ps.foldl minStep acc = (some m, lid) ∧ IsColMin (acc :: ps) m lid := by
  induction ps with
  | nil =>
    intro acc h
    have ha : ∃ a : α, acc.1 = some a := by
      rcases h with h | ⟨p, hp, _⟩
      · cases hacc : acc.1 with
        | none => exact absurd hacc h
        | some a => exact ⟨a, rfl⟩
      · simp at hp
    obtain ⟨a, ha⟩ := ha
    refine ⟨a, acc.2, by simp [← ha], ?_, [], [], by simp [← ha], by simp⟩
    rintro p hp x hx
    simp only [List.mem_singleton] at hp
    subst hp
    rw [ha] at hx
    exact le_of_eq (Option.some_inj.mp hx)
  | cons q rest ih =>
    intro acc h
    have hfold : (q :: rest).foldl minStep acc = rest.foldl minStep (minStep acc q) := rfl
    by_cases hrep : (gtN acc.1 q.1 || acc.1.isNone) = true
    · -- the candidate `q` replaces the accumulator
      rw [hfold, minStep_eq_cand hrep]
      have hacclt : ∀ x : α, acc.1 = some x → ∃ xq : α, q.1 = some xq ∧ xq < x := by
        intro x hx
        rw [hx] at hrep
        simp only [Option.isNone_some, Bool.or_false] at hrep
        obtain ⟨y, xq, hy, hq1, hlt⟩ := gtN_eq_true_iff.mp hrep
        exact ⟨xq, hq1, by rw [Option.some_inj.mp hy]; exact hlt⟩
      have hq' : q.1 ≠ none ∨ ∃ p ∈ rest, p.1 ≠ none := by
        rcases h with hacc | ⟨p, hp, hpne⟩
        · left
          cases hacc1 : acc.1 with
          | none => exact absurd hacc1 hacc
          | some a =>
            obtain ⟨xq, hq1, _⟩ := hacclt a hacc1
            rw [hq1]
            exact Option.some_ne_none xq
        · rcases List.mem_cons.mp hp with heq | hp2
          · subst heq; exact Or.inl hpne
          · exact Or.inr ⟨p, hp2, hpne⟩
      obtain ⟨m, lid, hres, hbound, pre, post, hsplit, hpre⟩ := ih q hq'
      have haccm : ∀ x : α, acc.1 = some x → m < x := by
        intro x hx
        obtain ⟨xq, hq1, hlt⟩ := hacclt x hx
        exact lt_of_le_of_lt (hbound q (List.mem_cons_self q rest) xq hq1) hlt
      refine ⟨m, lid, hres, ?_, acc :: pre, post, by rw [List.cons_append, ← hsplit], ?_⟩
      · rintro p hp x hx
        rcases List.mem_cons.mp hp with heq | hp2
        · subst heq
          exact le_of_lt (haccm x hx)
        · exact hbound p hp2 x hx
      · rintro p hp
        rcases List.mem_cons.mp hp with heq | hp2
        · subst heq
          intro hx
          exact absurd (haccm m hx) (lt_irrefl m)
        · exact hpre p hp2
    · -- the accumulator survives the comparison with `q`
      rw [hfold, minStep_eq_acc hrep]
      have ha : ∃ a : α, acc.1 = some a := by
        cases hacc1 : acc.1 with
        | none => rw [hacc1] at hrep; simp at hrep
        | some a => exact ⟨a, rfl⟩
      obtain ⟨a, ha⟩ := ha
      have hqle : ∀ xq : α, q.1 = some xq → a ≤ xq := by
        intro xq hq1
        by_contra hlt
        push_neg at hlt
        refine hrep ?_
        rw [hq1, ha]
        simp only [Bool.or_eq_true]
        exact Or.inl (gtN_eq_true_iff.mpr ⟨a, xq, rfl, rfl, hlt⟩)
      obtain ⟨m, lid, hres, hbound, pre, post, hsplit, hpre⟩ :=
        ih acc (Or.inl (by rw [ha]; exact Option.some_ne_none a))
      have ham : m ≤ a := hbound acc (List.mem_cons_self acc rest) a ha
      refine ⟨m, lid, hres, ?_, ?_⟩
      · rintro p hp x hx
        rcases List.mem_cons.mp hp with heq | hp2
        · subst heq
          rw [ha] at hx
          exact le_trans ham (le_of_eq (Option.some_inj.mp hx))
        · rcases List.mem_cons.mp hp2 with heq | hp3
          · subst heq
            exact le_trans ham (hqle x hx)
          · exact hbound p (List.mem_cons_of_mem acc hp3) x hx
      · rcases pre with _ | ⟨p0, pre2⟩
        · -- the accumulator itself attains the minimum
          simp only [List.nil_append, List.cons.injEq] at hsplit
          exact ⟨[], q :: rest, by rw [hsplit.1]; simp, by simp⟩
        · simp only [List.cons_append, List.cons.injEq] at hsplit
          obtain ⟨hp0, hrest⟩ := hsplit
          have hanem : acc.1 ≠ some m := by
            rw [hp0]
            exact hpre p0 (List.mem_cons_self p0 pre2)
          have haltm : m < a := by
            rcases lt_or_eq_of_le ham with h1 | h1
            · exact h1
            · rw [ha, ← h1] at hanem; exact absurd rfl hanem
          refine ⟨acc :: q :: pre2, post, by rw [hrest, hp0]; simp, ?_⟩
          rintro p hp
          rcases List.mem_cons.mp hp with heq | hp2
          · subst heq; exact hanem
          · rcases List.mem_cons.mp hp2 with heq | hp3
            · subst heq
              intro hqm
              exact absurd (lt_of_lt_of_le haltm (hqle m hqm)) (lt_irrefl m)
            · exact hpre p (List.mem_cons_of_mem p0 hp3)

/-- C2: on every value matrix, LID vector and column `j` holding at least one
non-NaN value, a fresh level-2 `MAX` aggregation (`use_previous_agg = false`)
returns `(some m, lid)` where `m` bounds every non-NaN value of the column and
`lid` is the LID of the earliest row attaining `m` (a strict comparison, so
ties keep the earliest LID); `MIN` symmetrically returns the minimum with its
earliest LID.  Moreover, for both aggregations, a NaN candidate never replaces
a non-NaN accumulator entry and a non-NaN candidate always replaces a NaN
accumulator entry. -/
theorem C2_level2_max_min {α : Type} [LinearOrder α]
    (array : List (List (Option α))) (lids : List Int) (j : Nat)
    (h : ∃ p ∈ columnPairs array lids j, p.1 ≠ none) :
    (∃ m lid, maxLoadCol false (none, 0) (columnPairs array lids j) = (some m, lid) ∧
      IsColMax (columnPairs array lids j) m lid) ∧
    (∃ m lid, minLoadCol false (none, 0) (columnPairs array lids j) = (some m, lid) ∧
      IsColMin (columnPairs array lids j) m lid) ∧
    (∀ (a : α) (la l : Int), maxStep (some a, la) (none, l) = (some a, la)) ∧
    (∀ (l0 l : Int) (x : α), maxStep (none, l0) (some x, l) = (some x, l)) ∧
    (∀ (a : α) (la l : Int), minStep (some a, la) (none, l) = (some a, la)) ∧
    (∀ (l0 l : Int) (x : α), minStep (none, l0) (some x, l) = (some x, l)) := by
  obtain ⟨p0, hp0, hne⟩ := h
  obtain ⟨p, rest, hps⟩ : ∃ p rest, columnPairs array lids j = p :: rest := by
    cases hcol : columnPairs array lids j with
    | nil => rw [hcol] at hp0; simp at hp0
    | cons p rest => exact ⟨p, rest, rfl⟩
  have hwit : p.1 ≠ none ∨ ∃ q ∈ rest, q.1 ≠ none := by
    rw [hps] at hp0
    rcases List.mem_cons.mp hp0 with heq | hmem
    · subst heq; exact Or.inl hne
    · exact Or.inr ⟨p0, hmem, hne⟩
  refine ⟨?_, ?_, fun a la l => rfl, fun l0 l x => rfl, fun a la l => rfl, fun l0 l x => rfl⟩
  · obtain ⟨m, lid, hres, hmax⟩ := foldl_maxStep_isColMax rest p hwit
    refine ⟨m, lid, ?_, by rw [hps]; exact hmax⟩
    rw [hps]
    simpa [maxLoadCol] using hres
  · obtain ⟨m, lid, hres, hmin⟩ := foldl_minStep_isColMin rest p hwit
    refine ⟨m, lid, ?_, by rw [hps]; exact hmin⟩
    rw [hps]
    simpa [minLoadCol] using hres

/-- C2 (witness): the aggregation theorem applied to the concrete two-row
matrix of spec scenario S3 (`NX` rows `[10, 20]` and `[1, 30]`, LIDs 100 and
200) at column 1, whose maximum 30 is attained at LID 200. -/
theorem C2_level2_max_min_witness :
    (∃ p ∈ columnPairs [[some (10:Int), some 20], [some 1, some 30]] [100, 200] 1,
      p.1 ≠ none) ∧
    ((∃ m lid, maxLoadCol false (none, 0)
        (columnPairs [[some (10:Int), some 20], [some 1, some 30]] [100, 200] 1) =
          (some m, lid) ∧
      IsColMax (columnPairs [[some (10:Int), some 20], [some 1, some 30]] [100, 200] 1) m lid) ∧
    (∃ m lid, minLoadCol false (none, 0)
        (columnPairs [[some (10:Int), some 20], [some 1, some 30]] [100, 200] 1) =
          (some m, lid) ∧
      IsColMin (columnPairs [[some (10:Int), some 20], [some 1, some 30]] [100, 200] 1) m lid) ∧
    (∀ (a : Int) (la l : Int), maxStep (some a, la) (none, l) = (some a, la)) ∧
    (∀ (l0 l : Int) (x : Int), maxStep (none, l0) (some x, l) = (some x, l)) ∧
    (∀ (a : Int) (la l : Int), minStep (some a, la) (none, l) = (some a, la)) ∧
    (∀ (l0 l : Int) (x : Int), minStep (none, l0) (some x, l) = (some x, l))) :=
  ⟨⟨(some 20, 100), by decide⟩,
    C2_level2_max_min [[some (10:Int), some 20], [some 1, some 30]] [100, 200] 1
      ⟨(some 20, 100), by decide⟩⟩

theorem addScaled_map {α : Type} [CommRing α] (f : Nat → α) (row : List α) (c : α) (m : Nat)
    (hrow : row.length = m) :
    addScaled ((List.range m).map f) row c =
      (List.range m).map (fun j => f j + row.getD j 0 * c) := by
  apply List.ext_getElem
  · simp [addScaled, hrow]
  · intro i h1 h2
    simp only [addScaled, List.getElem_zipWith, List.getElem_map, List.getElem_range]
    congr 1
    rw [List.getD_eq_getElem?_getD, List.getElem?_eq_getElem (by simp at h2; omega)]
    rfl

theorem foldl_addScaled {α : Type} [CommRing α] (scratch : List (List α)) (m : Nat) :
    ∀ (L : List (Nat × α)), (∀ ic ∈ L, (rowAt scratch ic.1).length = m) →
      ∀ f : Nat → α,
        L.foldl (fun out ic => addScaled out (rowAt scratch ic.1) ic.2)
            ((List.range m).map f) =
          (List.range m).map
            (fun j => f j + (L.map (fun ic => (rowAt scratch ic.1).getD j 0 * ic.2)).sum) := by
  intro L
  induction L with
  | nil => intro _ f; simp
  | cons ic L ih =>
    intro h f
    have hrow : (rowAt scratch ic.1).length = m := h ic (List.mem_cons_self ic L)
    rw [List.foldl_cons, addScaled_map f (rowAt scratch ic.1) ic.2 m hrow,
      ih (fun p hp => h p (List.mem_cons_of_mem ic hp))]
    apply List.map_congr_left
    intro j _
    simp [add_assoc]

theorem combineRow_eq_sum {α : Type} [CommRing α] (scratch : List (List α)) (m : Nat)
    (indexes : List Nat) (coeffs : List α)
    (h : ∀ ic ∈ indexes.zip coeffs, (rowAt scratch ic.1).length = m) :
    combineRow scratch m indexes coeffs =
      (List.range m).map (fun j =>
        ((indexes.zip coeffs).map (fun ic => (rowAt scratch ic.1).getD j 0 * ic.2)).sum) := by
  have hrepl : (List.replicate m (0:α)) = (List.range m).map (fun _ => 0) := by
    rw [List.map_const']
    simp
  rw [combineRow, hrepl, foldl_addScaled scratch m (indexes.zip coeffs) h]
  simp

theorem combineLoadCases_eq_spec {α : Type} [CommRing α] (m : Nat) (combos : List (Combination α)) :
    ∀ scratch : List (List α), (∀ c ∈ combos, c.index ≠ some 0) →
      combineLoadCases m scratch combos = combineLoadCasesSpec m scratch combos := by
  induction combos with
  | nil => intro scratch _; rfl
  | cons c rest ih =>
    intro scratch h
    have hc : c.index ≠ some 0 := h c (List.mem_cons_self c rest)
    have hrest : ∀ d ∈ rest, d.index ≠ some 0 :=
      fun d hd => h d (List.mem_cons_of_mem c hd)
    by_cases hemp : c.coeffs.isEmpty
    · simp only [combineLoadCases, combineLoadCasesSpec, hemp, if_true]
      rw [ih scratch hrest]
    · simp only [combineLoadCases, combineLoadCasesSpec, hemp, Bool.false_eq_true, if_false]
      cases hidx : c.index with
      | none => rw [ih scratch hrest]
      | some i =>
        have hi : i ≠ 0 := by
          intro h0
          subst h0
          exact hc hidx
        simp only [hi, ne_eq, not_false_iff, if_true, Bool.false_eq_true, if_false]
        rw [ih _ hrest]

/-- C3: for well-formed combination requests (every reserved scratch index is
non-zero, which holds for every validated query since the stored block
`LIDs2read` is non-empty and precedes the combined block), `combine_load_cases`
behaves exactly as the specification text describes: combinations are
evaluated in input order and every combined row is written back into the
scratch block at its reserved index, so later combinations read the
already-combined values; and each combined row equals the element-wise linear
combination `out[j] = sum of array[index_k, j] * coeff_k` of the individually
read scratch rows, which for stored LIDs is the linear combination of the
stored rows. -/
theorem C3_combination {α : Type} [CommRing α] (scratch : List (List α)) (m : Nat)
    (combos : List (Combination α)) (indexes : List Nat) (coeffs : List α)
    (hpos : ∀ c ∈ combos, c.index ≠ some 0)
    (hrows : ∀ ic ∈ indexes.zip coeffs, (rowAt scratch ic.1).length = m) :
    combineLoadCases m scratch combos = combineLoadCasesSpec m scratch combos ∧
    combineRow scratch m indexes coeffs =
      (List.range m).map (fun j =>
        ((indexes.zip coeffs).map (fun ic => (rowAt scratch ic.1).getD j 0 * ic.2)).sum) ∧
    (∀ (i : Nat) (idxs : List Nat) (cs : List α) (rest : List (Combination α)),
      cs.isEmpty = false → i ≠ 0 →
        combineLoadCases m scratch (Combination.mk (some i) idxs cs :: rest) =
          ((combineLoadCases m (scratch.set i (combineRow scratch m idxs cs)) rest).1,
            combineRow scratch m idxs cs ::
              (combineLoadCases m (scratch.set i (combineRow scratch m idxs cs)) rest).2)) := by
  refine ⟨combineLoadCases_eq_spec m combos scratch hpos,
    combineRow_eq_sum scratch m indexes coeffs hrows, ?_⟩
  intro i idxs cs rest hcs hi
  simp only [combineLoadCases, hcs, Bool.false_eq_true, if_false, hi, ne_eq,
    not_false_iff, if_true]

/-- C3 (witness): the combination theorem applied to the concrete scratch
block `[[1, 2], [3, 4]]` with one combination (reserved index 1, `2 * row 0`)
and the row formula at indexes `[0, 1]`, coefficients `[2, 3]`. -/
theorem C3_combination_witness :
    ((∀ c ∈ [Combination.mk (α := Int) (some 1) [0] [2]], c.index ≠ some 0) ∧
      (∀ ic ∈ ([0, 1] : List Nat).zip ([2, 3] : List Int),
        (rowAt ([[1, 2], [3, 4]] : List (List Int)) ic.1).length = 2)) ∧
    (combineLoadCases 2 [[(1:Int), 2], [3, 4]] [Combination.mk (some 1) [0] [2]] =
        combineLoadCasesSpec 2 [[(1:Int), 2], [3, 4]] [Combination.mk (some 1) [0] [2]] ∧
      combineRow [[(1:Int), 2], [3, 4]] 2 [0, 1] [2, 3] =
        (List.range 2).map (fun j =>
          ((([0, 1] : List Nat).zip ([2, 3] : List Int)).map
            (fun ic => (rowAt ([[1, 2], [3, 4]] : List (List Int)) ic.1).getD j 0 * ic.2)).sum) ∧
      (∀ (i : Nat) (idxs : List Nat) (cs : List Int) (rest : List (Combination Int)),
        cs.isEmpty = false → i ≠ 0 →
          combineLoadCases 2 [[(1:Int), 2], [3, 4]]
              (Combination.mk (some i) idxs cs :: rest) =
            ((combineLoadCases 2
                ([[(1:Int), 2], [3, 4]].set i
                  (combineRow [[(1:Int), 2], [3, 4]] 2 idxs cs)) rest).1,
              combineRow [[(1:Int), 2], [3, 4]] 2 idxs cs ::
                (combineLoadCases 2
                  ([[(1:Int), 2], [3, 4]].set i
                    (combineRow [[(1:Int), 2], [3, 4]] 2 idxs cs)) rest).2))) :=
  ⟨⟨by decide, by decide⟩,
    C3_combination [[(1:Int), 2], [3, 4]] 2 [Combination.mk (some 1) [0] [2]]
      [0, 1] [2, 3] (by decide) (by decide)⟩

/-- C4 (counterexample): with one level-0 field, two queried IDs of item size
4 (`size_per_LC = 8`), `max_memory = 7` and a single queried LID, the memory
condition `8 * 1 > 7` triggers batching, but a level-2 query does not succeed:
`max_memory // size_per_LC` is zero and the code raises `ZeroDivisionError`
when it divides the LID count by it. -/
theorem C4_counterexample :
    sizePerLC 1 2 4 * 1 > 7 ∧
    memBatches 7 (sizePerLC 1 2 4) 1 2 = Except.error "ZeroDivisionError" :=
  ⟨by decide, rfl⟩

theorem length_fullSlices (L q : Nat) : (fullSlices L q).length = q := by
  simp [fullSlices]

theorem getD_fullSlices (L q k : Nat) (hk : k < q) :
    (fullSlices L q).getD k (0, 0) = (k * L, (k + 1) * L) := by
  rw [fullSlices, List.getD_eq_getElem?_getD, List.getElem?_map, List.getElem?_range hk]
  rfl

theorem getLast?_fullSlices (L q : Nat) (hq : 0 < q) :
    (fullSlices L q).getLast? = some ((q - 1) * L, q * L) := by
  rw [fullSlices, List.getLast?_eq_getElem?]
  simp only [List.length_map, List.length_range]
  rw [List.getElem?_map, List.getElem?_range (by omega)]
  have hq1 : q - 1 + 1 = q := by omega
  simp [hq1]

/-- C4 (amended): when the per-load-case size is itself within the memory cap
(so `max_memory // size_per_LC >= 1`), the splitting behaves as claimed: an
over-limit query below aggregation level 2 fails with `MemoryError`; an
over-limit level-2 query succeeds with batch `k` covering LIDs
`[k * L, min ((k + 1) * L) n)` for `L = max_memory // size_per_LC` — i.e.
contiguous batches of exactly `L` LIDs plus one final remainder batch exactly
when `n mod L` is non-zero; an in-limit query uses a single batch covering all
LIDs; and `use_previous_agg` is true exactly for every batch index after the
first. -/
theorem C4_memory_cap (maxMemory szPerLC nLIDs level : Nat) :
    (szPerLC * nLIDs > maxMemory → level < 2 →
      memBatches maxMemory szPerLC nLIDs level = Except.error "MemoryError") ∧
    (szPerLC * nLIDs > maxMemory → 2 ≤ level → 0 < maxMemory / szPerLC →
      ∃ bs, memBatches maxMemory szPerLC nLIDs level = Except.ok bs ∧
        bs.length = nLIDs / (maxMemory / szPerLC) +
          (if nLIDs % (maxMemory / szPerLC) = 0 then 0 else 1) ∧
        (∀ k, k < bs.length → bs.getD k (0, 0) =
          (k * (maxMemory / szPerLC),
            min ((k + 1) * (maxMemory / szPerLC)) nLIDs))) ∧
    (¬ szPerLC * nLIDs > maxMemory →
      memBatches maxMemory szPerLC nLIDs level = Except.ok [(0, nLIDs)]) ∧
    (∀ i : Nat, usePreviousAggFlag i = true ↔ i ≠ 0) := by
  refine ⟨?_, ?_, ?_, ?_⟩
  · intro h1 h2
    simp only [memBatches]
    rw [if_pos h1, if_pos h2]
  · intro h1 h2 hL
    have hnotlt : ¬ level < 2 := by omega
    have hLne : ¬ maxMemory / szPerLC = 0 := by omega
    have hs : 0 < szPerLC := by
      rcases Nat.eq_zero_or_pos szPerLC with h0 | h0
      · rw [h0] at hL; simp at hL
      · exact h0
    have hmul : szPerLC * (maxMemory / szPerLC) ≤ maxMemory := by
      rw [mul_comm]
      exact Nat.div_mul_le_self maxMemory szPerLC
    have hLlt : maxMemory / szPerLC < nLIDs := by
      by_contra hge
      push_neg at hge
      exact absurd (le_trans (Nat.mul_le_mul_left szPerLC hge) hmul) (by omega)
    have hq : 1 ≤ nLIDs / (maxMemory / szPerLC) :=
      (Nat.one_le_div_iff hL).mpr (le_of_lt hLlt)
    have hqr : nLIDs / (maxMemory / szPerLC) * (maxMemory / szPerLC) +
        nLIDs % (maxMemory / szPerLC) = nLIDs := Nat.div_add_mod' nLIDs _
    have hrL : nLIDs % (maxMemory / szPerLC) < maxMemory / szPerLC :=
      Nat.mod_lt _ hL
    have hfull : ∀ k, k + 1 ≤ nLIDs / (maxMemory / szPerLC) →
        (k + 1) * (maxMemory / szPerLC) ≤ nLIDs := by
      intro k hk
      exact le_trans (Nat.mul_le_mul_right _ hk) (Nat.div_mul_le_self nLIDs _)
    by_cases hr : nLIDs % (maxMemory / szPerLC) = 0
    · refine ⟨fullSlices (maxMemory / szPerLC) (nLIDs / (maxMemory / szPerLC)), ?_, ?_, ?_⟩
      · simp only [memBatches]
        rw [if_pos h1, if_neg hnotlt, if_neg hLne, if_neg (not_not_intro hr)]
      · rw [length_fullSlices, if_pos hr]
        omega
      · intro k hk
        rw [length_fullSlices] at hk
        rw [getD_fullSlices _ _ _ hk, min_eq_left (hfull k hk)]
    · refine ⟨fullSlices (maxMemory / szPerLC) (nLIDs / (maxMemory / szPerLC)) ++
        [(nLIDs / (maxMemory / szPerLC) * (maxMemory / szPerLC), nLIDs)], ?_, ?_, ?_⟩
      · simp only [memBatches]
        rw [if_pos h1, if_neg hnotlt, if_neg hLne, if_pos hr,
          getLast?_fullSlices _ _ (by omega)]
        simp only [hqr]
      · rw [List.length_append, length_fullSlices, List.length_singleton, if_neg hr]
      · intro k hk
        rw [List.length_append, length_fullSlices, List.length_singleton] at hk
        by_cases hkq : k < nLIDs / (maxMemory / szPerLC)
        · rw [List.getD_append _ _ _ _ (by rw [length_fullSlices]; exact hkq),
            getD_fullSlices _ _ _ hkq, min_eq_left (hfull k hkq)]
        · have hkeq : k = nLIDs / (maxMemory / szPerLC) := by omega
          subst hkeq
          rw [List.getD_append_right _ _ _ _ (by rw [length_fullSlices])]
          rw [length_fullSlices, Nat.sub_self]
          have hlt : nLIDs < (nLIDs / (maxMemory / szPerLC) + 1) * (maxMemory / szPerLC) :=
            calc nLIDs
                = nLIDs / (maxMemory / szPerLC) * (maxMemory / szPerLC) +
                    nLIDs % (maxMemory / szPerLC) := hqr.symm
              _ < nLIDs / (maxMemory / szPerLC) * (maxMemory / szPerLC) +
                    maxMemory / szPerLC := Nat.add_lt_add_left hrL _
              _ = (nLIDs / (maxMemory / szPerLC) + 1) * (maxMemory / szPerLC) := by ring
          rw [min_eq_right (le_of_lt hlt)]
          rfl
  · intro h
    simp only [memBatches]
    rw [if_neg h]
  · intro i
    simp [usePreviousAggFlag]
    omega

/-- C4 (witness): the memory-cap theorem applied to `max_memory = 10`,
`size_per_LC = 4` (`L = 2`), five queried LIDs and aggregation level 2: the
product 20 exceeds the cap and the query splits into batches
`[(0,2), (2,4), (4,5)]`. -/
theorem C4_memory_cap_witness :
    ((4 * 5 > 10 ∧ 2 ≤ 2 ∧ 0 < 10 / 4) ∧ ¬ 4 * 1 > 10) ∧
    ((4 * 5 > 10 → 2 < 2 →
      memBatches 10 4 5 2 = Except.error "MemoryError") ∧
    (4 * 5 > 10 → 2 ≤ 2 → 0 < 10 / 4 →
      ∃ bs, memBatches 10 4 5 2 = Except.ok bs ∧
        bs.length = 5 / (10 / 4) + (if 5 % (10 / 4) = 0 then 0 else 1) ∧
        (∀ k, k < bs.length → bs.getD k (0, 0) =
          (k * (10 / 4), min ((k + 1) * (10 / 4)) 5))) ∧
    (¬ 4 * 5 > 10 → memBatches 10 4 5 2 = Except.ok [(0, 5)]) ∧
    (∀ i : Nat, usePreviousAggFlag i = true ↔ i ≠ 0)) :=
  ⟨⟨⟨by decide, by decide, by decide⟩, by decide⟩, C4_memory_cap 10 4 5 2⟩

theorem firstIdxOf_of_getLast (b : String) :
    ∀ xs : List String, xs.getLast? = some b → b ∉ xs.dropLast →
      firstIdxOf b xs = some (xs.length - 1) := by
  intro xs
  induction xs with
  | nil => intro h; simp at h
  | cons x rest ih =>
    intro hlast hnot
    cases rest with
    | nil =>
      simp only [List.getLast?_singleton, Option.some_inj] at hlast
      simp [firstIdxOf, hlast]
    | cons y rest2 =>
      rw [List.getLast?_cons_cons] at hlast
      have hdrop : (x :: y :: rest2).dropLast = x :: (y :: rest2).dropLast := by simp
      have hx : x ≠ b := by
        intro hxb
        exact hnot (by rw [hdrop]; exact hxb ▸ List.mem_cons_self x _)
      have hnot2 : b ∉ (y :: rest2).dropLast := by
        intro hmem
        exact hnot (by rw [hdrop]; exact List.mem_cons_of_mem x hmem)
      rw [firstIdxOf, if_neg hx, ih hlast hnot2]
      simp only [Option.map_some']
      congr 1

theorem filterMap_map_id_of {β γ : Type} (g : β → γ) (f : γ → Option β) :
    ∀ l : List β, (∀ x ∈ l, f (g x) = some x) → (l.map g).filterMap f = l := by
  intro l
  induction l with
  | nil => intro _; rfl
  | cons x rest ih =>
    intro h
    rw [List.map_cons, List.filterMap_cons, h x (List.mem_cons_self x rest),
      ih (fun y hy => h y (List.mem_cons_of_mem x hy))]

theorem foldl_max_init_le (l : List Nat) : ∀ init : Nat, init ≤ l.foldl max init := by
  induction l with
  | nil => intro init; exact le_rfl
  | cons x rest ih =>
    intro init
    exact le_trans (le_max_left init x) (ih (max init x))

theorem le_foldl_max_of_mem (l : List Nat) (a : Nat) (h : a ∈ l) :
    ∀ init : Nat, a ≤ l.foldl max init := by
  induction l with
  | nil => simp at h
  | cons x rest ih =>
    intro init
    rcases List.mem_cons.mp h with heq | hmem
    · subst heq
      exact le_trans (le_max_right init a) (foldl_max_init_le rest (max init a))
    · exact ih hmem (max init x)

theorem getD_of_getLast? {β : Type} (l : List β) (v d : β)
    (h : l.getLast? = some v) : l.getD (l.length - 1) d = v := by
  rw [List.getLast?_eq_getElem?] at h
  rw [List.getD_eq_getElem?_getD, h]
  rfl

theorem appendTables_keeps (tables : List (String × TableState))
    (apps : List TableAppend) (t : String × TableState) (ht : t ∈ tables) :
    ∃ u ∈ appendTables tables apps,
      u.1 = t.1 ∧ u.2.sealedBatches = t.2.sealedBatches := by
  unfold appendTables
  cases hfind : apps.find? (fun a => a.name == t.1) with
  | some a =>
    refine ⟨_, List.mem_map_of_mem _ ht, ?_⟩
    simp [hfind]
  | none =>
    refine ⟨_, List.mem_map_of_mem _ ht, ?_⟩
    simp [hfind]

/-- Rolling back the appended (dirty) state to the last sealed batch
reconstructs the pre-call manifest-tracked state; only the orphan directories
of the tables created by the failed ingestion remain on disk. -/
theorem restoreTo_appended (st : DbState) (apps : List TableAppend)
    (newTables : List (String × TableState)) (b : String)
    (htab : ∀ t ∈ st.tables,
      t.2.sealedBatches.getLast? = some (b, t.2.lids.length) ∧
      t.2.rows.length = t.2.lids.length ∧
      b ∉ t.2.sealedBatches.dropLast.map Prod.fst ∧
      t.2.sealedBatches.length ≤ st.batches.length)
    (hspan : st.batches.length = 1 ∨
      ∃ t ∈ st.tables, t.2.sealedBatches.length = st.batches.length) :
    restoreTo
      { batches := st.batches,
        tables := appendTables st.tables apps,
        untracked := st.untracked ++ newTables } b =
      { batches := st.batches,
        tables := st.tables,
        untracked := st.untracked ++ newTables } := by
  have hidx : ∀ t ∈ st.tables,
      firstIdxOf b (t.2.sealedBatches.map Prod.fst) =
        some (t.2.sealedBatches.length - 1) := by
    intro t ht
    obtain ⟨hlast, _, hnotmem, _⟩ := htab t ht
    have hlast2 : (t.2.sealedBatches.map Prod.fst).getLast? = some b := by
      rw [List.getLast?_map, hlast]
      rfl
    have hnot2 : b ∉ (t.2.sealedBatches.map Prod.fst).dropLast := by
      rw [← List.map_dropLast]
      intro hmem
      exact hnotmem hmem
    rw [firstIdxOf_of_getLast b _ hlast2 hnot2, List.length_map]
  have hpos : ∀ t ∈ st.tables, 1 ≤ t.2.sealedBatches.length := by
    intro t ht
    obtain ⟨hlast, _, _, _⟩ := htab t ht
    cases hsb : t.2.sealedBatches with
    | nil => rw [hsb] at hlast; simp at hlast
    | cons p rest => simp [hsb]
  unfold restoreTo
  simp only [DbState.mk.injEq]
  refine ⟨?_, ?_, trivial⟩
  · -- the manifest batch list is reproduced in full
    apply List.take_of_length_le
    rcases hspan with h1 | ⟨t0, ht0, hspan0⟩
    · have h0 : 0 ≤ (((appendTables st.tables apps).filterMap
          (fun t => firstIdxOf b (t.2.sealedBatches.map Prod.fst))).foldl max 0) :=
        Nat.zero_le _
      omega
    · obtain ⟨u, hu, hu1, hu2⟩ := appendTables_keeps st.tables apps t0 ht0
      have hmem : st.batches.length - 1 ∈
          (appendTables st.tables apps).filterMap
            (fun t => firstIdxOf b (t.2.sealedBatches.map Prod.fst)) := by
        refine List.mem_filterMap.mpr ⟨u, hu, ?_⟩
        rw [hu2, hidx t0 ht0, hspan0]
      have hle := le_foldl_max_of_mem _ _ hmem 0
      omega
  · -- the per-table truncation undoes the appends and drops nothing
    unfold appendTables
    apply filterMap_map_id_of
    intro t ht
    obtain ⟨hlast, hrows, hnotmem, _⟩ := htab t ht
    have hidxt := hidx t ht
    have hpost := hpos t ht
    have hfix : t.2.sealedBatches.length - 1 + 1 = t.2.sealedBatches.length := by omega
    have hgetD : (t.2.sealedBatches.getD (t.2.sealedBatches.length - 1) ("", 0)).2 =
        t.2.lids.length := by
      rw [getD_of_getLast? _ _ _ hlast]
    cases hfind : apps.find? (fun a => a.name == t.1) with
    | some a =>
      simp only [hfind, hidxt, hgetD, hfix, List.take_length, List.take_left,
        Option.some_inj]
      have htake : (t.2.rows ++ a.newRows).take t.2.lids.length = t.2.rows := by
        rw [← hrows, List.take_left]
      rw [htake]
    | none =>
      simp only [hfind, hidxt, hgetD, hfix, List.take_length, Option.some_inj]
      have htake : t.2.rows.take t.2.lids.length = t.2.rows := by
        rw [← hrows, List.take_length]
      rw [htake]

/-- C1 (counterexample): on a freshly created database (no sealed batch yet),
an error raised during ingestion is neither rolled back nor re-raised: the
rollback itself crashes with `IndexError` evaluating `self.header.batches[-1]`
on an empty batch list, the original error is lost, and the partially written
table directory stays on disk, so the claim fails for this database. -/
theorem C1_counterexample :
    newBatch dbFresh "b1" (Ingest.fail [] [("T", tableNew)] "boom") 1000000 4 =
      Except.error (DbErr.indexError,
        { batches := [], tables := [], untracked := [("T", tableNew)] }) ∧
    DbErr.indexError ≠ DbErr.ingest "boom" ∧
    ({ batches := [], tables := [], untracked := [("T", tableNew)] } : DbState) ≠
      dbFresh :=
  ⟨rfl, by decide, by decide⟩

/-- C1 (amended): on a database with at least one sealed batch (and the usual
manifest invariants, including an adequate transpose chunk budget for the
sealed tables), `new_batch` with a clashing batch name fails before modifying
any state, and any error raised during the guarded ingestion phase is
re-raised after the database is rolled back to the last sealed batch: the
manifest, the LID lists and the field files of every manifest-listed table
equal their pre-call state; only the directories of tables first created by
the failed batch remain on disk, invisible to the manifest. -/
theorem C1_new_batch_rollback (st : DbState) (name : String)
    (apps : List TableAppend) (newTables : List (String × TableState))
    (msg : String) (maxChunk itemsize : Nat)
    (hws : WellSealed st)
    (hchunk : ∀ t ∈ st.tables, transposeHazard maxChunk itemsize t.2 = false) :
    (name ∈ st.batches →
      newBatch st name (Ingest.fail apps newTables msg) maxChunk itemsize =
        Except.error (DbErr.alreadyExists, st)) ∧
    (name ∉ st.batches →
      newBatch st name (Ingest.fail apps newTables msg) maxChunk itemsize =
        Except.error (DbErr.ingest msg,
          { batches := st.batches, tables := st.tables,
            untracked := st.untracked ++ newTables })) := by
  obtain ⟨b, hb, htab, hspan⟩ := hws
  constructor
  · intro hmem
    rw [newBatch, if_pos hmem]
  · intro hnot
    simp only [newBatch, if_neg hnot, hb]
    rw [restoreTo_appended st apps newTables b htab hspan]
    have hany : (List.any st.tables fun t => transposeHazard maxChunk itemsize t.2) =
        false := by
      rw [List.any_eq_false]
      intro t ht
      rw [hchunk t ht]
      exact Bool.false_ne_true
    simp only [hany, Bool.false_eq_true, if_false]

/-- C1 (witness): the rollback theorem applied to the concrete one-batch
database `dbOne` and a failing ingestion that appends a row to table `T` and
creates a new table `U`. -/
theorem C1_new_batch_rollback_witness :
    (WellSealed dbOne ∧
      (∀ t ∈ dbOne.tables, transposeHazard 1000000 4 t.2 = false)) ∧
    (("b2" ∈ dbOne.batches →
      newBatch dbOne "b2"
          (Ingest.fail [TableAppend.mk "T" [3] [[3]]] [("U", tableNew)] "boom")
          1000000 4 =
        Except.error (DbErr.alreadyExists, dbOne)) ∧
    ("b2" ∉ dbOne.batches →
      newBatch dbOne "b2"
          (Ingest.fail [TableAppend.mk "T" [3] [[3]]] [("U", tableNew)] "boom")
          1000000 4 =
        Except.error (DbErr.ingest "boom",
          { batches := dbOne.batches, tables := dbOne.tables,
            untracked := dbOne.untracked ++ [("U", tableNew)] }))) :=
  ⟨⟨⟨"b1", rfl, by decide, Or.inl rfl⟩, by decide⟩,
    C1_new_batch_rollback dbOne "b2" [TableAppend.mk "T" [3] [[3]]]
      [("U", tableNew)] "boom" 1000000 4
      ⟨"b1", rfl, by decide, Or.inl rfl⟩ (by decide)⟩

/-- C10: sealing a batch is only total under the precondition
`max_chunk_size >= n_LIDs * itemsize` for every affected table:
`create_transpose` divides by `max_chunk_size // (n_LIDs * itemsize)`
unguarded, and that quotient is zero exactly when `max_chunk_size` is below
`n_LIDs * itemsize`, raising `ZeroDivisionError`; and because the assembly
phase runs outside the `try` block of `new_batch`, the error escapes with the
appended rows still on disk and the manifest untouched — the ingestion
rollback never runs. -/
theorem C10_transpose_zero_division (maxChunk itemsize : Nat) (st : DbState)
    (name : String) (apps : List TableAppend)
    (newTables : List (String × TableState)) :
    (∀ t : TableState, 0 < t.lids.length * itemsize →
      (transposeHazard maxChunk itemsize t = true ↔
        maxChunk < t.lids.length * itemsize)) ∧
    (name ∉ st.batches →
      (appendTables st.tables apps ++ newTables).any
        (fun t => transposeHazard maxChunk itemsize t.2) = true →
      newBatch st name (Ingest.ok apps newTables) maxChunk itemsize =
        Except.error (DbErr.zeroDivision,
          { batches := st.batches, tables := appendTables st.tables apps,
            untracked := st.untracked ++ newTables })) := by
  constructor
  · intro t hpos
    rw [transposeHazard, beq_iff_eq, Nat.div_eq_zero_iff hpos]
  · intro hnot hhaz
    simp only [newBatch, if_neg hnot]
    rw [if_pos hhaz]

/-- C10 (witness): the zero-division theorem applied to `dbOne` with
`max_memory = 10`, item size 4 and an ingestion growing table `T` to three
LIDs (`3 * 4 = 12 > 10`), so sealing crashes and the appended row persists. -/
theorem C10_transpose_zero_division_witness :
    ("b2" ∉ dbOne.batches ∧
      (appendTables dbOne.tables [TableAppend.mk "T" [3] [[3]]] ++ []).any
        (fun t => transposeHazard 10 4 t.2) = true) ∧
    ((∀ t : TableState, 0 < t.lids.length * 4 →
      (transposeHazard 10 4 t = true ↔ 10 < t.lids.length * 4)) ∧
    ("b2" ∉ dbOne.batches →
      (appendTables dbOne.tables [TableAppend.mk "T" [3] [[3]]] ++ []).any
        (fun t => transposeHazard 10 4 t.2) = true →
      newBatch dbOne "b2"
          (Ingest.ok [TableAppend.mk "T" [3] [[3]]] []) 10 4 =
        Except.error (DbErr.zeroDivision,
          { batches := dbOne.batches,
            tables := appendTables dbOne.tables [TableAppend.mk "T" [3] [[3]]],
            untracked := dbOne.untracked ++ [] }))) :=
  ⟨⟨by decide, by decide⟩,
    C10_transpose_zero_division 10 4 dbOne "b2" [TableAppend.mk "T" [3] [[3]]] []⟩

/-- C8 (counterexample): for the one-byte payload `[65]` sent with type tag
`'0'` (byte 48), the bytes `Connection.send` puts on the wire are not a 7-byte
little-endian binary length followed by the tag and payload, and the bulk file
stream for the one-byte file `[65]` is not an 8-byte little-endian binary
length followed by the file bytes: the code emits ASCII-decimal zero-filled
length fields of 14 and 15 characters instead. -/
theorem C8_counterexample :
    sendFrame 48 [65] ≠ leBytes 7 1 ++ [48] ++ [65] ∧
    sendFileWire [65] ≠ leBytes 8 1 ++ [65] := by
  constructor <;> decide

/-- C8 (amended): every frame is a 14-character ASCII-decimal zero-filled
length, then the one-byte type tag, then exactly `length` payload bytes; every
bulk file transfer is a 15-character ASCII-decimal zero-filled length followed
by the raw file bytes with no per-chunk framing.  The length fields parse back
(as `int` of the decoded characters) to the payload and file sizes. -/
theorem C8_frame_layout (tag : Nat) (payload contents : List Nat)
    (h1 : payload.length < 10 ^ 14) (h2 : contents.length < 10 ^ 15) :
    ∃ hdr fhdr : List Nat,
      sendFrame tag payload = hdr ++ [tag] ++ payload ∧
      hdr.length = 14 ∧ parseAsciiNat hdr = payload.length ∧
      sendFileWire contents = fhdr ++ contents ∧
      fhdr.length = 15 ∧ parseAsciiNat fhdr = contents.length := by
  refine ⟨(zfill (headerSize - 1) (decimalDigits payload.length)).map asciiDigit,
    (zfill headerSize (decimalDigits contents.length)).map asciiDigit,
    rfl, ?_, ?_, rfl, ?_, ?_⟩
  · rw [List.length_map]
    exact zfill_length _ _ (decimalDigits_length_le _ _ (by norm_num [headerSize]) h1)
  · rw [parseAsciiNat_map_asciiDigit, beDigitsToNat_zfill, beDigitsToNat_decimalDigits]
  · rw [List.length_map]
    exact zfill_length _ _ (decimalDigits_length_le _ _ (by norm_num [headerSize]) h2)
  · rw [parseAsciiNat_map_asciiDigit, beDigitsToNat_zfill, beDigitsToNat_decimalDigits]

/-- C8 (witness): the frame-layout theorem applied to the concrete frame of
payload `[65]` with tag byte 48 and the concrete file `[66, 67]`. -/
theorem C8_frame_layout_witness :
    ([65] : List Nat).length < 10 ^ 14 ∧ ([66, 67] : List Nat).length < 10 ^ 15 ∧
    (∃ hdr fhdr : List Nat,
      sendFrame 48 [65] = hdr ++ [48] ++ [65] ∧
      hdr.length = 14 ∧ parseAsciiNat hdr = ([65] : List Nat).length ∧
      sendFileWire [66, 67] = fhdr ++ [66, 67] ∧
      fhdr.length = 15 ∧ parseAsciiNat fhdr = ([66, 67] : List Nat).length) :=
  ⟨by norm_num, by norm_num,
    C8_frame_layout 48 [65] [66, 67] (by norm_num) (by norm_num)⟩

/-- C7 (code bug): a non-admin session whose allowed-database list contains the
target database is not authorized; evaluating the membership clause calls the
request dict (`query('path')`) and raises `TypeError` instead.  The empty and
null allowed-list cases do raise `PermissionError` as specified, and the claim
expects the listed case to succeed. -/
theorem C7_authorize_bug :
    authorize ⟨false, false, some ["db1"]⟩ "new_batch" "db1" = AuthOutcome.typeError ∧
    authorize ⟨false, false, some ["db1"]⟩ "new_batch" "db1" ≠ AuthOutcome.ok ∧
    "db1" ∈ ["db1"] ∧
    authorize ⟨false, false, some []⟩ "new_batch" "db1" = AuthOutcome.permissionError ∧
    authorize ⟨false, false, none⟩ "restore_database" "db1" = AuthOutcome.permissionError := by
  refine ⟨by decide, by decide, by decide, by decide, by decide⟩

end Loadit
